import Mathlib

/-!
Verification of the answer-key parsing and grading core of an exam
auto-grader (a Streamlit application, file app.py).

The reimplementable core consists of two pure Python functions:

  parse_answer_key(raw) — scans raw text with the regular expression
    (\d{1,4})\s*[:\-]?\s*([a-eA-EvVfF])   via re.findall, and builds a
    dict mapping int(number) to the lowercased letter (later matches
    overwrite earlier ones, as Python dict assignment does);

  grade_answers(student, key, total_q) — for total_q <= 0 returns
    (0.0, 0, 0); otherwise counts the questions q in 1..total_q with
    q in student, q in key and student[q] == key[q], and returns
    (round((correct / total_q) * 20, 2), correct, total_q - correct).

The embedding below models Python dicts over int keys produced by these
functions as association lists with in-place overwrite (dictInsert),
Python ints as Int (question counts) and Nat (question numbers, which
only arise from digit strings, hence are non-negative), and the regex
scan by an explicit character-level scanner.

The score is a Python float.  The model computes the expression
round((correct / total_q) * 20, 2) exactly in IEEE-754 binary64
semantics: the int division correct / total_q is correctly rounded to
binary64 (as CPython guarantees), the multiplication by 20 forms the
exact product of two rationals and re-rounds it to binary64, and
Python 3 round(x, 2) applies round-half-to-even to the exact decimal
value of the double x and returns the binary64 value nearest the
result.  Every intermediate double is carried as its exact rational
value (a fraction with power-of-two denominator), which loses nothing:
a float is determined by its exact value.  So, for example, the score
of 1 correct answer out of 800 is the double nearest 0.03 — the
computed double for (1/800)*20 lies strictly above the decimal tie
0.025, so Python rounds up — and not the 0.02 that exact-rational
banker's rounding of 1/40 would give; the model reproduces this (see
the examples after grade_eq_spec).

Character classes: Python str patterns give d and s their Unicode-wide
readings (all Unicode decimal digits and whitespace).  The classes
below are their ASCII restrictions — d as the digits 0-9, s as the six
ASCII whitespace characters — while the letter class {a,b,c,d,e,v,f}
in either case is exact.  Every theorem quantifying over raw input
either restricts the string to ASCII (claim C6) or constrains the
scanned characters to these classes by hypothesis (the tokenization
theorems), so each stated theorem is true of the program; on ASCII
input the model is the program.

Since the regex engine scans left to right, retries at the next
character position on failure, and continues after the end of each
match (non-overlapping matches), the scanner below does the same; the
only backtracking point of the pattern, the greedy digit quantifier
{1,4}, can never succeed with a shorter digit run when a longer one is
available (a leftover digit matches neither the separator class, the
whitespace class nor the letter class), so a maximal-munch scanner is
exact.
-/

/-- Char class of the regex digit class d, restricted to ASCII
(Python's d also matches non-ASCII Unicode decimal digits; theorems
over raw input account for this by an ASCII bound or by hypotheses
placing characters in this class). -/
def isDigitCh (c : Char) : Bool := c.isDigit

/-- Char class of the regex whitespace class s, restricted to the six
ASCII whitespace characters (Python's s also matches further Unicode
whitespace; the tokenization theorems quantify only over whitespace in
this class). -/
def isSpaceCh (c : Char) : Bool :=
  c == ' ' || c == '\t' || c == '\n' || c == '\r' || c == '\x0b' || c == '\x0c'

/-- Char class of the separator class of the pattern, [:\-]. -/
def isSepCh (c : Char) : Bool := c == ':' || c == '-'

/-- Char class of the answer-letter class of the pattern, [a-eA-EvVfF]. -/
def isAnsLetter (c : Char) : Bool :=
  c == 'a' || c == 'b' || c == 'c' || c == 'd' || c == 'e' ||
  c == 'A' || c == 'B' || c == 'C' || c == 'D' || c == 'E' ||
  c == 'v' || c == 'V' || c == 'f' || c == 'F'

/-- Numeric value of a digit string, as Python int() computes it on a
string of decimal digits (leading zeros are ignored numerically). -/
def natOfDigits (ds : List Char) : Nat :=
  ds.foldl (fun acc c => acc * 10 + (c.toNat - 48)) 0

/-- Matcher for the tail of the pattern after the digit group:
s* [:\-]? s* ([a-eA-EvVfF]).  Returns the captured letter and the
characters after the match.  Greedy maximal munch is exact here: a
whitespace character matches neither the separator nor the letter
class, and a separator character matches neither the whitespace nor
the letter class, so no shorter alternative can succeed. -/
def afterSpaces (l : List Char) : List Char := l.dropWhile isSpaceCh

/-- The optional separator [:\-]? of the pattern: consume one
separator character when present. -/
def afterSep (l : List Char) : List Char :=
  match l with
  | c :: rest => if isSepCh c then rest else c :: rest
  | [] => []

def matchTail (l : List Char) : Option (Char × List Char) :=
  match afterSpaces (afterSep (afterSpaces l)) with
  | c :: rest => if isAnsLetter c then some (c, rest) else none
  | [] => none

/-- Fuel-driven scanner implementing re.findall for the pattern
(d{1,4})s*[:\-]?s*([a-eA-EvVfF]): at each position, if a digit run of
length at most 4 starts here and the tail pattern matches after it,
emit the pair and continue after the match; otherwise advance one
character.  A digit run longer than 4 can never match at its start
(any 1-4 digit prefix leaves a digit where the letter must be), which
is why the run-length test stands in for the greedy quantifier.  The
fuel only serves structural recursion; fuel = length of the input is
always enough because every step consumes at least one character. -/
def scanGo : Nat → List Char → List (Nat × Char)
  | 0, _ => []
  | _, [] => []
  | fuel+1, c :: rest =>
    if isDigitCh c then
      let run := List.takeWhile isDigitCh (c :: rest)
      if run.length ≤ 4 then
        match matchTail (List.drop run.length (c :: rest)) with
        | some (letter, rest2) => (natOfDigits run, letter.toLower) :: scanGo fuel rest2
        | none => scanGo fuel rest
      else scanGo fuel rest
    else scanGo fuel rest

/-- All matches of the answer pattern in the given character list, in
scan order, with the letter lowercased — the list of pairs that the
Python loop over re.findall iterates. -/
def scanMatches (l : List Char) : List (Nat × Char) := scanGo l.length l

/-- Python dict assignment d[k] = v on an association list: overwrite
in place when the key is present, append otherwise (Python dicts keep
insertion order). -/
def dictInsert (m : List (Nat × Char)) (k : Nat) (v : Char) : List (Nat × Char) :=
  if m.any (fun p => p.1 == k) then
    m.map (fun p => if p.1 = k then (k, v) else p)
  else m ++ [(k, v)]

/-- Python dict lookup / membership on an association list.  Lists
built by dictInsert have pairwise distinct keys, so taking the first
hit is exact. -/
def dictLookup : List (Nat × Char) → Nat → Option Char
  | [], _ => none
  | p :: rest, q => if p.1 = q then some p.2 else dictLookup rest q

/-- The dict built by the Python loop: for n, c in candidates:
ans[int(n)] = c.lower(). -/
def dictOfPairs (ps : List (Nat × Char)) : List (Nat × Char) :=
  ps.foldl (fun m p => dictInsert m p.1 p.2) []

/-- parse_answer_key(raw) from app.py: empty input short-circuits to
the empty dict, otherwise every regex match is inserted in scan
order. -/
def parse_answer_key (raw : String) : List (Nat × Char) :=
  if raw.isEmpty then [] else dictOfPairs (scanMatches raw.data)

/-- The per-question test of the grading loop:
q in student and q in key and student[q] == key[q]. -/
def answerMatch (student key : List (Nat × Char)) (q : Nat) : Bool :=
  match dictLookup student q, dictLookup key q with
  | some a, some b => a == b
  | _, _ => false

/-- Round-half-to-even of the fraction a / b, for b > 0 (the fraction
need not be reduced): f is its floor, r the numerator of the
fractional part over b, and the fractional part is below, above, or
exactly one half according as 2r compares with b. -/
def rhe (a b : Int) : Int :=
  let f : Int := Int.fdiv a b
  let r : Int := a - f * b
  if 2 * r < b then f
  else if b < 2 * r then f + 1
  else if f % 2 = 0 then f else f + 1

/-- Number of binary digits of n, i.e. floor(log2 n) + 1 for n >= 1
and 0 for 0.  The fuel only serves structural recursion; fuel = n is
always enough since the bit length of n never exceeds n. -/
def bitLenGo : Nat → Nat → Nat
  | 0, _ => 0
  | fuel+1, n => if n = 0 then 0 else bitLenGo fuel (n / 2) + 1

def bitLen (n : Nat) : Nat := bitLenGo n n

/-- Whether 2 ^ e <= num / den, for num, den >= 1 and a signed
exponent e. -/
def pow2Le (e : Int) (num den : Nat) : Bool :=
  if 0 ≤ e then den * 2 ^ e.toNat ≤ num
  else den ≤ num * 2 ^ (-e).toNat

/-- The binade exponent of num / den (num, den >= 1): the unique
integer e with 2 ^ e <= num / den < 2 ^ (e + 1).  Since
bitLen n - 1 = floor(log2 n), the floor of log2(num / den) is
bitLen num - bitLen den or that value minus one; one comparison
decides which. -/
def floorLog2 (num den : Nat) : Int :=
  let e0 : Int := (bitLen num : Int) - (bitLen den : Int)
  if pow2Le e0 num den then e0 else e0 - 1

/-- The IEEE-754 binary64 value nearest to n / d (round to nearest,
ties to even), for 0 <= n and 0 < d, returned as an exact fraction
(numerator, positive power-of-two denominator).  The significand grid
has step 2 ^ (e - 52) in the binade of exponent e of the normal range
and step 2 ^ -1074 below it (subnormals, gradual underflow to 0);
rounding up at the top of a binade lands on the next binade
correctly.  Overflow to infinity (values at or beyond 2 ^ 1024) is not
modelled: every use in this file rounds a quotient in [0, 1] or a
value in [0, 2000].  Floats carry no more information than their exact
rational value, so equality of these fractions is equality of the
floats. -/
def flFrac (n d : Int) : Int × Int :=
  if n ≤ 0 then (0, 1)
  else
    let e : Int := floorLog2 n.toNat d.toNat
    let p : Int := if e ≤ -1022 then -1074 else e - 52
    if 0 ≤ p then (rhe n (d * 2 ^ p.toNat) * 2 ^ p.toNat, 1)
    else (rhe (n * 2 ^ (-p).toNat) d, 2 ^ (-p).toNat)

/-- The float score expression round((correct / total_q) * 20, 2) of
the source, computed exactly in binary64 semantics: CPython divides
the two ints with correct rounding to binary64, multiplies by 20 (the
int 20 converts exactly; the product of the two exact rationals is
re-rounded to binary64), and Python 3 round(x, 2) applies
round-half-to-even to the exact decimal value of the double x and
returns the binary64 value nearest the result.  The score is returned
as an exact fraction (numerator, power-of-two-times-one denominator
from flFrac). -/
def pyScoreFrac (c t : Int) : Int × Int :=
  let d1 := flFrac c t
  let d2 := flFrac (20 * d1.1) d1.2
  let k := rhe (100 * d2.1) d2.2
  flFrac k 100

/-- grade_answers(student, key, total_q) from app.py.  The Python loop
for q in range(1, total_q+1) is the fold over [1, ..., total_q]; the
float expression round((correct / total_q) * 20, 2) is modelled
exactly by pyScoreFrac (binary64 arithmetic with Python-3 rounding),
whose value is returned as a rational. -/
def grade_answers (student key : List (Nat × Char)) (total_q : Int) : ℚ × Int × Int :=
  if total_q ≤ 0 then (0, 0, 0)
  else
    let qs := (List.range total_q.toNat).map (fun i => i + 1)
    let correct : Int := qs.foldl (fun acc q => if answerMatch student key q then acc + 1 else acc) 0
    let nota : ℚ := ((pyScoreFrac correct total_q).1 : ℚ) / ((pyScoreFrac correct total_q).2 : ℚ)
    (nota, correct, total_q - correct)

/-- Modelled from the spec: the number of questions the spec of the
grader declares correct — the count of q in 1..totalQuestions present
in both mappings with equal stored letters.  Stated over Finset.Icc to
compare with the loop of the code. -/
def specCorrectCount (student key : List (Nat × Char)) (total_q : Int) : Nat :=
  ((Finset.Icc 1 total_q.toNat).filter (fun q => answerMatch student key q = true)).card

/-- Restriction of a mapping to the question range 1..total_q, used to
state that graded results only depend on that part of each mapping. -/
def restrictTo (m : List (Nat × Char)) (total_q : Int) : List (Nat × Char) :=
  m.filter (fun p => decide (1 ≤ p.1 ∧ (p.1 : Int) ≤ total_q))

/-- One well-formed token of the answer-key syntax: a digit string
followed by a colon and an answer letter. -/
def renderToken (t : List Char × Char) : List Char :=
  t.1 ++ ':' :: [t.2]

/-- A comma-and-space separated sequence of well-formed tokens — the
documented answer-key wire format. -/
def renderTokens : List (List Char × Char) → List Char
  | [] => []
  | [t] => renderToken t
  | t :: ts => renderToken t ++ ',' :: ' ' :: renderTokens ts

/-- The value stored for a key after a sequence of dict assignments:
the last assigned value in order, if any. -/
def lastValue (ps : List (Nat × Char)) (q : Nat) : Option Char :=
  ps.foldl (fun acc p => if p.1 = q then some p.2 else acc) none

example : parse_answer_key "1:a, 2:d, 3:e, 4:v, 5:f" =
    [(1,'a'),(2,'d'),(3,'e'),(4,'v'),(5,'f')] := by decide

example : parse_answer_key "1) a" = [] := by decide

example : parse_answer_key "0:a" = [(0,'a')] := by decide

example : parse_answer_key "1:A" = [(1,'a')] := by decide

example : parse_answer_key "1:a, 1:b" = [(1,'b')] := by decide

example : parse_answer_key "12a" = [(12,'a')] := by decide

example : parse_answer_key "the 3b option" = [(3,'b')] := by decide

example : parse_answer_key "1:ab" = [(1,'a')] := by decide

example : parse_answer_key "no digits here" = [] := by decide

example : grade_answers [] [] 0 = (0, 0, 0) := by
  simp [grade_answers]

example : pyScoreFrac 1 2 = (5629499534213120, 562949953421312) := by decide

example : pyScoreFrac 1 800 = (8646911284551352, 288230376151711744) := by decide

example : flFrac 3 100 = (8646911284551352, 288230376151711744) := by decide

/-! Character-class facts: the four classes of the pattern are
pairwise disjoint, which justifies the maximal-munch scanner. -/

lemma ansLetter_cases {c : Char} (h : isAnsLetter c = true) :
    c = 'a' ∨ c = 'b' ∨ c = 'c' ∨ c = 'd' ∨ c = 'e' ∨
    c = 'A' ∨ c = 'B' ∨ c = 'C' ∨ c = 'D' ∨ c = 'E' ∨
    c = 'v' ∨ c = 'V' ∨ c = 'f' ∨ c = 'F' := by
  simp only [isAnsLetter, Bool.or_eq_true, beq_iff_eq] at h
  tauto

lemma spaceCh_cases {c : Char} (h : isSpaceCh c = true) :
    c = ' ' ∨ c = '\t' ∨ c = '\n' ∨ c = '\r' ∨ c = '\x0b' ∨ c = '\x0c' := by
  simp only [isSpaceCh, Bool.or_eq_true, beq_iff_eq] at h
  tauto

lemma sepCh_cases {c : Char} (h : isSepCh c = true) : c = ':' ∨ c = '-' := by
  simp only [isSepCh, Bool.or_eq_true, beq_iff_eq] at h
  tauto

lemma ansLetter_not_space {c : Char} (h : isAnsLetter c = true) : isSpaceCh c = false := by
  rcases ansLetter_cases h with h|h|h|h|h|h|h|h|h|h|h|h|h|h <;> subst h <;> decide

lemma ansLetter_not_sep {c : Char} (h : isAnsLetter c = true) : isSepCh c = false := by
  rcases ansLetter_cases h with h|h|h|h|h|h|h|h|h|h|h|h|h|h <;> subst h <;> decide

lemma ansLetter_not_digit {c : Char} (h : isAnsLetter c = true) : isDigitCh c = false := by
  rcases ansLetter_cases h with h|h|h|h|h|h|h|h|h|h|h|h|h|h <;> subst h <;> decide

lemma digit_not_space {c : Char} (h : isDigitCh c = true) : isSpaceCh c = false := by
  cases hs : isSpaceCh c
  · rfl
  · rcases spaceCh_cases hs with h'|h'|h'|h'|h'|h' <;> subst h' <;> simp [isDigitCh] at h

lemma digit_not_sep {c : Char} (h : isDigitCh c = true) : isSepCh c = false := by
  cases hs : isSepCh c
  · rfl
  · rcases sepCh_cases hs with h'|h' <;> subst h' <;> simp [isDigitCh] at h

lemma digit_not_ansLetter {c : Char} (h : isDigitCh c = true) : isAnsLetter c = false := by
  cases hs : isAnsLetter c
  · rfl
  · rw [ansLetter_not_digit hs] at h
    exact absurd h (by simp)

lemma sep_not_space {c : Char} (h : isSepCh c = true) : isSpaceCh c = false := by
  rcases sepCh_cases h with h|h <;> subst h <;> decide

/-! Generic list helpers for the scanner proofs. -/

lemma dropWhile_length_le {α : Type} (p : α → Bool) :
    ∀ l : List α, (l.dropWhile p).length ≤ l.length := by
  intro l
  induction l with
  | nil => simp
  | cons x xs ih =>
    rw [List.dropWhile_cons]
    by_cases h : p x = true
    · simp only [h, if_true]
      exact le_trans ih (Nat.le_succ _)
    · simp [h]

lemma dropWhile_append_all {α : Type} (p : α → Bool) (l r : List α)
    (h : ∀ x ∈ l, p x = true) :
    (l ++ r).dropWhile p = r.dropWhile p := by
  induction l with
  | nil => simp
  | cons x xs ih =>
    have hx : p x = true := h x (by simp)
    simp only [List.cons_append, List.dropWhile_cons, hx, if_true]
    exact ih (fun y hy => h y (by simp [hy]))

lemma dropWhile_cons_false {α : Type} (p : α → Bool) (c : α) (l : List α)
    (h : p c = false) : (c :: l).dropWhile p = c :: l := by
  simp [List.dropWhile_cons, h]

lemma takeWhile_append_all {α : Type} (p : α → Bool) (l r : List α)
    (h : ∀ x ∈ l, p x = true) :
    (l ++ r).takeWhile p = l ++ r.takeWhile p := by
  induction l with
  | nil => simp
  | cons x xs ih =>
    have hx : p x = true := h x (by simp)
    simp only [List.cons_append, List.takeWhile_cons, hx, if_true]
    rw [ih (fun y hy => h y (by simp [hy]))]

lemma takeWhile_cons_false {α : Type} (p : α → Bool) (c : α) (l : List α)
    (h : p c = false) : (c :: l).takeWhile p = [] := by
  simp [List.takeWhile_cons, h]

/-! matchTail facts. -/

lemma afterSep_length_le (l : List Char) : (afterSep l).length ≤ l.length := by
  cases l with
  | nil => simp [afterSep]
  | cons c rest =>
    simp only [afterSep]
    by_cases h : isSepCh c = true
    · simp [h, Nat.le_succ]
    · simp [h]

lemma matchTail_length {l : List Char} {c : Char} {rest : List Char}
    (h : matchTail l = some (c, rest)) : rest.length < l.length := by
  unfold matchTail at h
  rcases h3 : afterSpaces (afterSep (afterSpaces l)) with _ | ⟨x, xs⟩
  · rw [h3] at h
    simp at h
  · rw [h3] at h
    dsimp only at h
    by_cases hx : isAnsLetter x = true
    · rw [if_pos hx] at h
      have hrest : rest = xs := by
        have := h
        simp at this
        exact this.2.symm
      subst hrest
      have h1 : (x :: rest).length ≤ (afterSep (afterSpaces l)).length := by
        rw [← h3]
        exact dropWhile_length_le _ _
      have h2 : (afterSep (afterSpaces l)).length ≤ (afterSpaces l).length :=
        afterSep_length_le _
      have h4 : (afterSpaces l).length ≤ l.length := dropWhile_length_le _ _
      simp only [List.length_cons] at h1
      omega
    · rw [if_neg hx] at h
      simp at h

lemma matchTail_head_not_digit {l : List Char} {c : Char} {rest : List Char}
    (h : matchTail l = some (c, rest)) :
    ∀ x xs, l = x :: xs → isDigitCh x = false := by
  intro x xs hl
  subst hl
  cases hd : isDigitCh x
  · rfl
  · exfalso
    have hs : isSpaceCh x = false := digit_not_space hd
    have hsep : isSepCh x = false := digit_not_sep hd
    have hans : isAnsLetter x = false := digit_not_ansLetter hd
    unfold matchTail at h
    rw [show afterSpaces (x :: xs) = x :: xs from dropWhile_cons_false _ _ _ hs] at h
    rw [show afterSep (x :: xs) = x :: xs by simp [afterSep, hsep]] at h
    rw [show afterSpaces (x :: xs) = x :: xs from dropWhile_cons_false _ _ _ hs] at h
    simp [hans] at h

lemma matchTail_letter {l : List Char} {c : Char} {rest : List Char}
    (h : matchTail l = some (c, rest)) : isAnsLetter c = true := by
  unfold matchTail at h
  rcases h3 : afterSpaces (afterSep (afterSpaces l)) with _ | ⟨x, xs⟩
  · rw [h3] at h
    simp at h
  · rw [h3] at h
    dsimp only at h
    by_cases hx : isAnsLetter x = true
    · rw [if_pos hx] at h
      simp at h
      rw [← h.1]
      exact hx
    · rw [if_neg hx] at h
      simp at h

/-- The general shape of a successful tail match: optional whitespace,
an optional single separator, optional whitespace, then the letter. -/
lemma matchTail_spec (ws1 ws2 sep : List Char) (c : Char) (rest : List Char)
    (hws1 : ∀ x ∈ ws1, isSpaceCh x = true) (hws2 : ∀ x ∈ ws2, isSpaceCh x = true)
    (hsep : sep = [] ∨ sep = [':'] ∨ sep = ['-'])
    (hc : isAnsLetter c = true) :
    matchTail (ws1 ++ (sep ++ (ws2 ++ c :: rest))) = some (c, rest) := by
  have hcs : isSpaceCh c = false := ansLetter_not_space hc
  have hcsep : isSepCh c = false := ansLetter_not_sep hc
  have hw2 : afterSpaces (ws2 ++ c :: rest) = c :: rest := by
    unfold afterSpaces
    rw [dropWhile_append_all _ ws2 _ hws2, dropWhile_cons_false _ _ _ hcs]
  have hlast : afterSpaces (afterSep (c :: rest)) = c :: rest := by
    have h2 : afterSep (c :: rest) = c :: rest := by
      dsimp only [afterSep]
      rw [if_neg]
      simp [hcsep]
    rw [h2]
    exact dropWhile_cons_false _ _ _ hcs
  unfold matchTail
  rcases hsep with h | h | h <;> subst h
  · have h1 : afterSpaces (ws1 ++ ([] ++ (ws2 ++ c :: rest))) = c :: rest := by
      unfold afterSpaces
      rw [List.nil_append, dropWhile_append_all _ ws1 _ hws1]
      exact hw2
    rw [h1, hlast]
    dsimp only
    rw [if_pos hc]
  · have h1 : afterSpaces (ws1 ++ ([':'] ++ (ws2 ++ c :: rest))) =
        ':' :: (ws2 ++ c :: rest) := by
      unfold afterSpaces
      rw [List.singleton_append, dropWhile_append_all _ ws1 _ hws1]
      exact dropWhile_cons_false _ _ _ (by decide)
    rw [h1]
    have h2 : afterSep (':' :: (ws2 ++ c :: rest)) = ws2 ++ c :: rest := by
      dsimp only [afterSep]
      rw [if_pos (by decide)]
    rw [h2, hw2]
    dsimp only
    rw [if_pos hc]
  · have h1 : afterSpaces (ws1 ++ (['-'] ++ (ws2 ++ c :: rest))) =
        '-' :: (ws2 ++ c :: rest) := by
      unfold afterSpaces
      rw [List.singleton_append, dropWhile_append_all _ ws1 _ hws1]
      exact dropWhile_cons_false _ _ _ (by decide)
    rw [h1]
    have h2 : afterSep ('-' :: (ws2 ++ c :: rest)) = ws2 ++ c :: rest := by
      dsimp only [afterSep]
      rw [if_pos (by decide)]
    rw [h2, hw2]
    dsimp only
    rw [if_pos hc]

/-! Fuel irrelevance for the scanner: any fuel at least the input
length gives the same matches, so scanMatches is the scan itself. -/

lemma scanGo_nil0 (l : List Char) : scanGo 0 l = [] := by
  cases l <;> rfl

lemma scanGo_nil (fuel : Nat) : scanGo fuel [] = [] := by
  cases fuel <;> rfl

lemma scanGo_step (fuel : Nat) (c : Char) (rest : List Char) :
    scanGo (fuel+1) (c :: rest) =
      if isDigitCh c then
        (if (List.takeWhile isDigitCh (c :: rest)).length ≤ 4 then
          match matchTail (List.drop (List.takeWhile isDigitCh (c :: rest)).length (c :: rest)) with
          | some (letter, rest2) =>
              (natOfDigits (List.takeWhile isDigitCh (c :: rest)), letter.toLower) :: scanGo fuel rest2
          | none => scanGo fuel rest
        else scanGo fuel rest)
      else scanGo fuel rest := rfl

lemma scanGo_congr : ∀ (f1 f2 : Nat) (l : List Char),
    l.length ≤ f1 → l.length ≤ f2 → scanGo f1 l = scanGo f2 l := by
  intro f1
  induction f1 with
  | zero =>
    intro f2 l h1 _
    have hl : l = [] := List.eq_nil_of_length_eq_zero (Nat.le_zero.mp h1)
    subst hl
    rw [scanGo_nil, scanGo_nil]
  | succ n ih =>
    intro f2 l h1 h2
    cases f2 with
    | zero =>
      have hl : l = [] := List.eq_nil_of_length_eq_zero (Nat.le_zero.mp h2)
      subst hl
      rw [scanGo_nil, scanGo_nil]
    | succ m =>
      cases l with
      | nil => rw [scanGo_nil, scanGo_nil]
      | cons c rest =>
        have hr : rest.length ≤ n := by
          simp only [List.length_cons] at h1
          omega
        have hm : rest.length ≤ m := by
          simp only [List.length_cons] at h2
          omega
        rw [scanGo_step n, scanGo_step m]
        by_cases hd : isDigitCh c = true
        · rw [if_pos hd, if_pos hd]
          by_cases hlen : (List.takeWhile isDigitCh (c :: rest)).length ≤ 4
          · rw [if_pos hlen, if_pos hlen]
            rcases hmt : matchTail
                (List.drop (List.takeWhile isDigitCh (c :: rest)).length (c :: rest)) with
              _ | ⟨letter, rest2⟩
            · exact ih m rest hr hm
            · have hrun : 1 ≤ (List.takeWhile isDigitCh (c :: rest)).length := by
                rw [List.takeWhile_cons, if_pos hd]
                simp
              have h5 := matchTail_length hmt
              rw [List.length_drop, List.length_cons] at h5
              have h6 : rest2.length ≤ rest.length := by omega
              have := ih m rest2 (le_trans h6 hr) (le_trans h6 hm)
              dsimp only
              rw [this]
          · rw [if_neg hlen, if_neg hlen]
            exact ih m rest hr hm
        · rw [if_neg hd, if_neg hd]
          exact ih m rest hr hm

lemma scanMatches_nil : scanMatches [] = [] := rfl

lemma scanMatches_cons_not_digit {c : Char} (l : List Char) (h : isDigitCh c = false) :
    scanMatches (c :: l) = scanMatches l := by
  show scanGo (l.length + 1) (c :: l) = scanGo l.length l
  rw [scanGo_step, if_neg (by simp [h])]

/-- The central tokenization lemma: a 1-to-4 digit run followed by a
matchable tail produces exactly one pair — the value of the digit run
with the lowercased letter — and the scan resumes right after the
letter. -/
lemma scanMatches_token (ds : List Char) (hne : ds ≠ []) (hds : ∀ x ∈ ds, isDigitCh x = true)
    (hlen : ds.length ≤ 4) {tail : List Char} {c : Char} {rest : List Char}
    (hmt : matchTail tail = some (c, rest)) :
    scanMatches (ds ++ tail) = (natOfDigits ds, c.toLower) :: scanMatches rest := by
  obtain ⟨d, ds', rfl⟩ := List.exists_cons_of_ne_nil hne
  have htne : tail ≠ [] := by
    intro h
    rw [h, show matchTail [] = none from rfl] at hmt
    cases hmt
  obtain ⟨t, ts, rfl⟩ := List.exists_cons_of_ne_nil htne
  have htd : isDigitCh t = false := matchTail_head_not_digit hmt t ts rfl
  have hrun : List.takeWhile isDigitCh (d :: (ds' ++ t :: ts)) = d :: ds' := by
    rw [← List.cons_append, takeWhile_append_all _ _ _ hds, takeWhile_cons_false _ _ _ htd,
      List.append_nil]
  have hdrop : List.drop (d :: ds').length (d :: (ds' ++ t :: ts)) = t :: ts := by
    rw [← List.cons_append, List.drop_left]
  show scanGo (d :: ds' ++ t :: ts).length (d :: ds' ++ t :: ts) = _
  rw [List.cons_append, List.length_cons, scanGo_step]
  rw [if_pos (hds d (by simp))]
  rw [hrun]
  rw [if_pos hlen]
  rw [hdrop, hmt]
  dsimp only
  have h5 : rest.length ≤ (ds' ++ t :: ts).length := by
    have := matchTail_length hmt
    simp only [List.length_cons] at this
    simp only [List.length_append, List.length_cons]
    omega
  rw [scanGo_congr _ rest.length rest h5 (le_refl _)]
  rfl

/-! Dict lemmas: lookup after a sequence of Python dict assignments is
last-assignment-wins. -/

lemma dictLookup_of_not_contains {m : List (Nat × Char)} {k : Nat}
    (h : m.any (fun p => p.1 == k) = false) : dictLookup m k = none := by
  induction m with
  | nil => rfl
  | cons p rest ih =>
    rw [List.any_cons] at h
    have h1 : (p.1 == k) = false := by
      cases hpk : (p.1 == k)
      · rfl
      · rw [hpk] at h
        simp at h
    have h2 : rest.any (fun p => p.1 == k) = false := by
      cases hr : rest.any (fun p => p.1 == k)
      · rfl
      · rw [hr] at h
        simp at h
    show (if p.1 = k then some p.2 else dictLookup rest k) = none
    rw [if_neg (by simpa using h1)]
    exact ih h2

lemma dictLookup_map_replace {k : Nat} {v : Char} {q : Nat} (hq : q ≠ k) :
    ∀ m : List (Nat × Char),
      dictLookup (m.map (fun p => if p.1 = k then (k, v) else p)) q = dictLookup m q := by
  intro m
  induction m with
  | nil => rfl
  | cons p rest ih =>
    rw [List.map_cons]
    by_cases hpk : p.1 = k
    · rw [if_pos hpk]
      show (if k = q then some v else _) = (if p.1 = q then some p.2 else _)
      rw [if_neg (fun h => hq h.symm), if_neg (fun h => hq (hpk ▸ h).symm)]
      exact ih
    · rw [if_neg hpk]
      show (if p.1 = q then some p.2 else _) = (if p.1 = q then some p.2 else _)
      by_cases hpq : p.1 = q
      · rw [if_pos hpq, if_pos hpq]
      · rw [if_neg hpq, if_neg hpq]
        exact ih

lemma dictLookup_map_replace_self {k : Nat} {v : Char} :
    ∀ m : List (Nat × Char), m.any (fun p => p.1 == k) = true →
      dictLookup (m.map (fun p => if p.1 = k then (k, v) else p)) k = some v := by
  intro m
  induction m with
  | nil => intro h; cases h
  | cons p rest ih =>
    intro h
    rw [List.map_cons]
    by_cases hpk : p.1 = k
    · rw [if_pos hpk]
      show (if k = k then some v else _) = some v
      rw [if_pos rfl]
    · rw [if_neg hpk]
      rw [List.any_cons] at h
      have : rest.any (fun p => p.1 == k) = true := by
        cases hr : rest.any (fun p => p.1 == k)
        · rw [hr] at h
          simp only [Bool.or_false] at h
          exact absurd (by simpa using h) hpk
        · rfl
      show (if p.1 = k then some p.2 else _) = some v
      rw [if_neg hpk]
      exact ih this

lemma dictLookup_append_single {m : List (Nat × Char)} {k : Nat} {v : Char}
    (h : m.any (fun p => p.1 == k) = false) :
    ∀ q, dictLookup (m ++ [(k, v)]) q = if q = k then some v else dictLookup m q := by
  induction m with
  | nil =>
    intro q
    show (if k = q then some v else none) = if q = k then some v else none
    by_cases hq : q = k
    · rw [if_pos hq.symm, if_pos hq]
    · rw [if_neg (fun hh => hq hh.symm), if_neg hq]
  | cons p rest ih =>
    intro q
    rw [List.any_cons] at h
    have h1 : p.1 ≠ k := by
      cases hpk : (p.1 == k)
      · simpa using hpk
      · rw [hpk] at h
        simp at h
    have h2 : rest.any (fun p => p.1 == k) = false := by
      cases hr : rest.any (fun p => p.1 == k)
      · rfl
      · rw [hr] at h
        simp at h
    show (if p.1 = q then some p.2 else dictLookup (rest ++ [(k, v)]) q) = _
    by_cases hpq : p.1 = q
    · rw [if_pos hpq]
      have hqk : q ≠ k := fun hh => h1 (hpq.trans hh)
      rw [if_neg hqk]
      show _ = (if p.1 = q then some p.2 else dictLookup rest q)
      rw [if_pos hpq]
    · rw [if_neg hpq, ih h2 q]
      by_cases hqk : q = k
      · rw [if_pos hqk, if_pos hqk]
      · rw [if_neg hqk, if_neg hqk]
        show _ = (if p.1 = q then some p.2 else dictLookup rest q)
        rw [if_neg hpq]

/-- Python dict assignment in terms of lookup. -/
lemma dictLookup_insert (m : List (Nat × Char)) (k q : Nat) (v : Char) :
    dictLookup (dictInsert m k v) q = if q = k then some v else dictLookup m q := by
  unfold dictInsert
  by_cases hany : m.any (fun p => p.1 == k) = true
  · rw [if_pos hany]
    by_cases hq : q = k
    · subst hq
      rw [if_pos rfl]
      exact dictLookup_map_replace_self m hany
    · rw [if_neg hq, dictLookup_map_replace hq]
  · rw [if_neg hany]
    have hany2 : m.any (fun p => p.1 == k) = false := by
      cases h2 : m.any (fun p => p.1 == k)
      · rfl
      · exact absurd h2 hany
    exact dictLookup_append_single hany2 q

/-- Looking up a key after folding a list of assignments over any
starting dict yields the last assigned value, or the original value
when the key is never assigned. -/
lemma dictLookup_foldl : ∀ (ps : List (Nat × Char)) (m : List (Nat × Char)) (q : Nat),
    dictLookup (ps.foldl (fun m p => dictInsert m p.1 p.2) m) q =
      ps.foldl (fun acc p => if p.1 = q then some p.2 else acc) (dictLookup m q) := by
  intro ps
  induction ps with
  | nil => intro m q; rfl
  | cons p ps' ih =>
    intro m q
    rw [List.foldl_cons, List.foldl_cons, ih]
    have heq : dictLookup (dictInsert m p.1 p.2) q =
        (if p.1 = q then some p.2 else dictLookup m q) := by
      rw [dictLookup_insert]
      by_cases h : q = p.1
      · rw [if_pos h, if_pos h.symm]
      · rw [if_neg h, if_neg (fun hh => h hh.symm)]
    rw [heq]

/-- dictLookup on the dict built from a pair list is last-match-wins. -/
lemma dictLookup_dictOfPairs (ps : List (Nat × Char)) (q : Nat) :
    dictLookup (dictOfPairs ps) q = lastValue ps q :=
  dictLookup_foldl ps [] q

/-- Every entry of an assignment-built dict carries a value that was
assigned by one of the pairs. -/
lemma dictInsert_mem {m : List (Nat × Char)} {k : Nat} {v : Char} {p : Nat × Char}
    (hp : p ∈ dictInsert m k v) : p ∈ m ∨ p = (k, v) := by
  unfold dictInsert at hp
  by_cases hany : m.any (fun p => p.1 == k) = true
  · rw [if_pos hany] at hp
    obtain ⟨q, hq, hqp⟩ := List.mem_map.mp hp
    by_cases hqk : q.1 = k
    · rw [if_pos hqk] at hqp
      right
      exact hqp.symm
    · rw [if_neg hqk] at hqp
      left
      rw [← hqp]
      exact hq
  · rw [if_neg hany] at hp
    rcases List.mem_append.mp hp with h | h
    · left
      exact h
    · right
      simpa using h

lemma dictOfPairs_mem : ∀ (ps : List (Nat × Char)) (m : List (Nat × Char)) (p : Nat × Char),
    p ∈ ps.foldl (fun m p => dictInsert m p.1 p.2) m → p ∈ m ∨ ∃ q ∈ ps, p.2 = q.2 := by
  intro ps
  induction ps with
  | nil =>
    intro m p hp
    left
    exact hp
  | cons x ps' ih =>
    intro m p hp
    rw [List.foldl_cons] at hp
    rcases ih (dictInsert m x.1 x.2) p hp with h | ⟨q, hq, hval⟩
    · rcases dictInsert_mem h with h2 | h2
      · left
        exact h2
      · right
        exact ⟨x, by simp, by rw [h2]⟩
    · right
      exact ⟨q, by simp [hq], hval⟩

/-- Every letter the scanner emits is the lowercasing of a letter of
the answer class. -/
lemma scanGo_letters : ∀ (fuel : Nat) (l : List Char) (p : Nat × Char),
    p ∈ scanGo fuel l → ∃ c, isAnsLetter c = true ∧ p.2 = c.toLower := by
  intro fuel
  induction fuel with
  | zero =>
    intro l p hp
    rw [scanGo_nil0] at hp
    cases hp
  | succ n ih =>
    intro l p hp
    cases l with
    | nil =>
      rw [scanGo_nil] at hp
      cases hp
    | cons c rest =>
      rw [scanGo_step] at hp
      by_cases hd : isDigitCh c = true
      · rw [if_pos hd] at hp
        by_cases hlen : (List.takeWhile isDigitCh (c :: rest)).length ≤ 4
        · rw [if_pos hlen] at hp
          rcases hmt : matchTail
              (List.drop (List.takeWhile isDigitCh (c :: rest)).length (c :: rest)) with
            _ | ⟨letter, rest2⟩
          · rw [hmt] at hp
            exact ih rest p hp
          · rw [hmt] at hp
            dsimp only at hp
            rcases List.mem_cons.mp hp with h | h
            · exact ⟨letter, matchTail_letter hmt, by rw [h]⟩
            · exact ih rest2 p h
        · rw [if_neg hlen] at hp
          exact ih rest p hp
      · rw [if_neg hd] at hp
        exact ih rest p hp

lemma ansLetter_toLower {c : Char} (h : isAnsLetter c = true) :
    c.toLower = 'a' ∨ c.toLower = 'b' ∨ c.toLower = 'c' ∨ c.toLower = 'd' ∨
    c.toLower = 'e' ∨ c.toLower = 'v' ∨ c.toLower = 'f' := by
  rcases ansLetter_cases h with h|h|h|h|h|h|h|h|h|h|h|h|h|h <;> subst h <;> decide

/-! Counting lemmas connecting the grading loop to the cardinality of
the set of correct questions. -/

lemma foldl_count_eq (p : Nat → Bool) : ∀ (l : List Nat) (a : Int),
    l.foldl (fun acc q => if p q then acc + 1 else acc) a = a + l.countP p := by
  intro l
  induction l with
  | nil => intro a; simp
  | cons x xs ih =>
    intro a
    rw [List.foldl_cons, List.countP_cons]
    by_cases h : p x = true
    · rw [if_pos h, ih, if_pos h]
      push_cast
      ring
    · rw [if_neg h, ih, if_neg h]
      simp

lemma countP_range_card (p : Nat → Bool) : ∀ n : Nat,
    ((List.range n).map (fun i => i + 1)).countP p =
      ((Finset.Icc 1 n).filter (fun q => p q = true)).card := by
  intro n
  induction n with
  | zero => simp
  | succ k ih =>
    rw [List.range_succ, List.map_append, List.countP_append]
    have h1 : Finset.Icc 1 (k+1) = insert (k+1) (Finset.Icc 1 k) :=
      (Nat.Icc_insert_succ_right (by omega)).symm
    rw [h1, Finset.filter_insert]
    by_cases h : p (k+1) = true
    · rw [if_pos h, Finset.card_insert_of_not_mem (by simp)]
      simp only [List.map_cons, List.map_nil, List.countP_cons, List.countP_nil, h, if_pos]
      omega
    · rw [if_neg h]
      simp only [List.map_cons, List.map_nil, List.countP_cons, List.countP_nil, h]
      simpa using ih

/-- Lookup commutes with filtering by a key predicate: on keys the
predicate keeps, the filtered dict answers as the original. -/
lemma dictLookup_filter (pred : Nat → Bool) : ∀ (m : List (Nat × Char)) (q : Nat),
    dictLookup (m.filter (fun p => pred p.1)) q =
      if pred q then dictLookup m q else none := by
  intro m
  induction m with
  | nil =>
    intro q
    show (none : Option Char) = if pred q then none else none
    by_cases h : pred q = true
    · rw [if_pos h]
    · rw [if_neg h]
  | cons p rest ih =>
    intro q
    rw [List.filter_cons]
    by_cases hp : pred p.1 = true
    · rw [if_pos hp]
      show (if p.1 = q then some p.2 else dictLookup (rest.filter _) q) = _
      by_cases hpq : p.1 = q
      · rw [if_pos hpq]
        have hq : pred q = true := hpq ▸ hp
        rw [if_pos hq]
        show _ = (if p.1 = q then some p.2 else dictLookup rest q)
        rw [if_pos hpq]
      · rw [if_neg hpq, ih]
        by_cases hq : pred q = true
        · rw [if_pos hq, if_pos hq]
          show _ = (if p.1 = q then some p.2 else dictLookup rest q)
          rw [if_neg hpq]
        · rw [if_neg hq, if_neg hq]
    · rw [if_neg hp, ih]
      by_cases hq : pred q = true
      · rw [if_pos hq, if_pos hq]
        have hpq : p.1 ≠ q := by
          intro hh
          rw [hh] at hp
          exact hp hq
        show _ = (if p.1 = q then some p.2 else dictLookup rest q)
        rw [if_neg hpq]
      · rw [if_neg hq, if_neg hq]

/-! Unfolding parse_answer_key over an explicit character list. -/

lemma parse_mk_eq (l : List Char) :
    parse_answer_key (String.mk l) = dictOfPairs (scanMatches l) := by
  unfold parse_answer_key
  cases l with
  | nil =>
    rw [if_pos (by decide)]
    rfl
  | cons c cs =>
    rw [if_neg]
    intro h
    have h2 : String.mk (c :: cs) = "" := (String.isEmpty_iff _).mp h
    have h3 : (String.mk (c :: cs)).data = ("" : String).data := by rw [h2]
    simp at h3

lemma scanGo_no_digit : ∀ (fuel : Nat) (l : List Char),
    (∀ c ∈ l, isDigitCh c = false) → scanGo fuel l = [] := by
  intro fuel
  induction fuel with
  | zero => intro l _; exact scanGo_nil0 l
  | succ n ih =>
    intro l h
    cases l with
    | nil => exact scanGo_nil _
    | cons c rest =>
      rw [scanGo_step, if_neg (by simp [h c (by simp)])]
      exact ih rest (fun x hx => h x (by simp [hx]))

lemma parse_no_digit (s : String) (h : ∀ c ∈ s.data, isDigitCh c = false) :
    parse_answer_key s = [] := by
  unfold parse_answer_key
  by_cases hemp : s.isEmpty = true
  · rw [if_pos hemp]
  · rw [if_neg hemp]
    show dictOfPairs (scanGo s.data.length s.data) = []
    rw [scanGo_no_digit _ _ h]
    rfl

lemma grade_eq_spec (student key : List (Nat × Char)) (total_q : Int) (h : 1 ≤ total_q) :
    grade_answers student key total_q =
      (((pyScoreFrac (specCorrectCount student key total_q : Int) total_q).1 : ℚ) /
         ((pyScoreFrac (specCorrectCount student key total_q : Int) total_q).2 : ℚ),
       (specCorrectCount student key total_q : Int),
       total_q - (specCorrectCount student key total_q : Int)) := by
  have hneg : ¬ total_q ≤ 0 := by omega
  unfold grade_answers
  rw [if_neg hneg]
  dsimp only
  have hc : ((List.range total_q.toNat).map (fun i => i + 1)).foldl
      (fun acc q => if answerMatch student key q then acc + 1 else acc) (0 : Int) =
      (specCorrectCount student key total_q : Int) := by
    rw [foldl_count_eq (fun q => answerMatch student key q)]
    rw [countP_range_card]
    unfold specCorrectCount
    simp
  rw [hc]

set_option maxRecDepth 8000 in
example : (grade_answers [(1,'a')] [(1,'a')] 800).1 =
    (8646911284551352 : ℚ) / 288230376151711744 := by
  rw [grade_eq_spec [(1,'a')] [(1,'a')] 800 (by decide)]
  have hs : specCorrectCount [(1,'a')] [(1,'a')] 800 = 1 := by decide
  rw [hs]
  have hfrac : pyScoreFrac ((1 : ℕ) : Int) 800 = (8646911284551352, 288230376151711744) := by
    decide
  rw [hfrac]
  push_cast
  ring

/-- Claim C1: for every student mapping, key mapping and
totalQuestions at least 1, grade returns correctCount equal to the
number of question numbers q in 1..totalQuestions present in both
mappings with equal stored letters, incorrectCount equal to
totalQuestions - correctCount, and score equal to
round((correctCount / totalQuestions) * 20, 2) — the latter read as
the source computes it, in IEEE binary64 with Python-3 rounding,
modelled exactly by pyScoreFrac; in particular the spec example
grade({1:a,2:b}, {1:a,2:c}, 2) = (10.0, 1, 1). -/
theorem claim1_grade_formula :
    (∀ (student key : List (Nat × Char)) (total_q : Int), 1 ≤ total_q →
      grade_answers student key total_q =
        (((pyScoreFrac (specCorrectCount student key total_q : Int) total_q).1 : ℚ) /
           ((pyScoreFrac (specCorrectCount student key total_q : Int) total_q).2 : ℚ),
         (specCorrectCount student key total_q : Int),
         total_q - (specCorrectCount student key total_q : Int))) ∧
    grade_answers [(1,'a'),(2,'b')] [(1,'a'),(2,'c')] 2 = (10, 1, 1) := by
  refine ⟨grade_eq_spec, ?_⟩
  rw [grade_eq_spec [(1,'a'),(2,'b')] [(1,'a'),(2,'c')] 2 (by decide)]
  have hs : specCorrectCount [(1,'a'),(2,'b')] [(1,'a'),(2,'c')] 2 = 1 := by decide
  rw [hs]
  have hfrac : pyScoreFrac ((1 : ℕ) : Int) 2 = (5629499534213120, 562949953421312) := by
    decide
  rw [hfrac]
  norm_num

/-- Claim C1 witness: the theorem applied at the spec example. -/
theorem claim1_grade_formula_witness :
    grade_answers [(1,'a'),(2,'b')] [(1,'a'),(2,'c')] 2 =
      (((pyScoreFrac (specCorrectCount [(1,'a'),(2,'b')] [(1,'a'),(2,'c')] 2 : Int) 2).1 : ℚ) /
         ((pyScoreFrac (specCorrectCount [(1,'a'),(2,'b')] [(1,'a'),(2,'c')] 2 : Int) 2).2 : ℚ),
       (specCorrectCount [(1,'a'),(2,'b')] [(1,'a'),(2,'c')] 2 : Int),
       2 - (specCorrectCount [(1,'a'),(2,'b')] [(1,'a'),(2,'c')] 2 : Int)) :=
  claim1_grade_formula.1 [(1,'a'),(2,'b')] [(1,'a'),(2,'c')] 2 (by decide)

/-- Claim C7: for every student and key mapping and every
totalQuestions at most 0, grade returns (0.0, 0, 0) and this is not an
error. -/
theorem claim7_degenerate (student key : List (Nat × Char)) (total_q : Int)
    (h : total_q ≤ 0) : grade_answers student key total_q = (0, 0, 0) := by
  unfold grade_answers
  rw [if_pos h]

/-- Claim C7 witness: the degenerate case at totalQuestions = 0. -/
theorem claim7_degenerate_witness : grade_answers [(1,'a')] [(1,'b')] 0 = (0, 0, 0) :=
  claim7_degenerate [(1,'a')] [(1,'b')] 0 (by decide)

/-- Claim C9: parse and grade are deterministic — equal inputs give
equal outputs; both are pure functions of their arguments in this
model, as in the source, which reads no state outside the
arguments. -/
theorem claim9_deterministic :
    (∀ s1 s2 : String, s1 = s2 → parse_answer_key s1 = parse_answer_key s2) ∧
    (∀ (st1 st2 k1 k2 : List (Nat × Char)) (t1 t2 : Int), st1 = st2 → k1 = k2 → t1 = t2 →
      grade_answers st1 k1 t1 = grade_answers st2 k2 t2) := by
  constructor
  · intro s1 s2 h
    rw [h]
  · intro st1 st2 k1 k2 t1 t2 h1 h2 h3
    rw [h1, h2, h3]

/-- Claim C9 witness: determinism applied at concrete inputs. -/
theorem claim9_deterministic_witness :
    parse_answer_key "1:a" = parse_answer_key "1:a" ∧
    grade_answers [(1,'a')] [(1,'a')] 1 = grade_answers [(1,'a')] [(1,'a')] 1 :=
  ⟨claim9_deterministic.1 "1:a" "1:a" rfl,
   claim9_deterministic.2 [(1,'a')] [(1,'a')] [(1,'a')] [(1,'a')] 1 1 rfl rfl rfl⟩

/-- Claim C6: parse never fails: it is a total function (by
construction in this model, as in the source, whose only operations
are a regex scan and dict assignment, neither of which can raise), and
every ASCII input with no decimal digit — including the empty string
and the fully unparseable spec examples, which are all ASCII — yields
the empty mapping.  The ASCII bound scopes the statement to inputs on
which the model's digit class coincides with the Unicode-wide d class
of Python patterns: a non-ASCII string can contain a Unicode decimal
digit and then parse to a non-empty mapping in the program, which this
claim does not speak about. -/
theorem claim6_totality :
    (∀ s : String, (∀ c ∈ s.data, c.toNat < 128) →
      (∀ c ∈ s.data, isDigitCh c = false) → parse_answer_key s = []) ∧
    parse_answer_key "" = [] ∧ parse_answer_key "no digits here" = [] := by
  refine ⟨fun s _ h => parse_no_digit s h, by decide, by decide⟩

/-- Claim C6 witness: the no-digit theorem applied to unparseable
ASCII text. -/
theorem claim6_totality_witness : parse_answer_key "?? -- ??" = [] :=
  claim6_totality.1 "?? -- ??" (by decide) (by decide)

/-- Claim C2 counterexample: the claim says a closing parenthesis is
an accepted separator, so that "1) a" yields the entry 1 -> a; but the
separator class of the source pattern is [:\-] only, and parse of
"1) a" stores nothing at all. -/
theorem claim2_paren_counterexample :
    parse_answer_key "1) a" = [] ∧ ¬ dictLookup (parse_answer_key "1) a") 1 = some 'a' := by
  constructor
  · decide
  · decide

/-- Claim C2 as amended: parse scans for all non-overlapping
occurrences of a 1-to-4-digit integer followed — allowing an optional
separator of colon or hyphen only, with optional surrounding
whitespace — by one letter from the class {a,b,c,d,e,v,f}
case-insensitively, stores exactly those matches, and an input using a
closing parenthesis as separator, such as "1) a", yields no entry. -/
theorem claim2_amended_tokenization :
    (∀ (ds ws1 ws2 sep : List Char) (c : Char) (rest : List Char),
        ds ≠ [] → ds.length ≤ 4 → (∀ x ∈ ds, isDigitCh x = true) →
        (∀ x ∈ ws1, isSpaceCh x = true) → (∀ x ∈ ws2, isSpaceCh x = true) →
        (sep = [] ∨ sep = [':'] ∨ sep = ['-']) → isAnsLetter c = true →
        scanMatches (ds ++ (ws1 ++ (sep ++ (ws2 ++ c :: rest)))) =
          (natOfDigits ds, c.toLower) :: scanMatches rest) ∧
    parse_answer_key "1) a" = [] := by
  constructor
  · intro ds ws1 ws2 sep c rest hne hlen hds hws1 hws2 hsep hc
    exact scanMatches_token ds hne hds hlen (matchTail_spec ws1 ws2 sep c rest hws1 hws2 hsep hc)
  · decide

/-- Claim C2 witness: one colon-separated token with surrounding
whitespace, at concrete inputs. -/
theorem claim2_amended_tokenization_witness :
    scanMatches (['2'] ++ ([' '] ++ ([':'] ++ ([' '] ++ 'B' :: [])))) =
      (natOfDigits ['2'], 'B'.toLower) :: scanMatches [] :=
  claim2_amended_tokenization.1 ['2'] [' '] [' '] [':'] 'B' [] (by decide) (by decide)
    (by decide) (by decide) (by decide) (by decide) (by decide)

/-- Claim C3 counterexample: the claim says every key of a parsed
mapping is a positive integer, but the digit class of the pattern
admits "0", and parse("0:a") stores the key 0, which is not
positive. -/
theorem claim3_zero_key_counterexample :
    parse_answer_key "0:a" = [(0, 'a')] ∧ ¬ (∀ p ∈ parse_answer_key "0:a", 1 ≤ p.1) := by
  constructor
  · decide
  · decide

/-- Claim C3 as amended: every key of a mapping returned by parse is a
non-negative integer (the value of a digit string, possibly 0 — keys
are modelled as Nat for exactly this reason), and every stored value
is a single lowercase character from {a,b,c,d,e,v,f}; in particular
parse("1:A") = {1:"a"}; no unrecognized token is ever stored. -/
theorem claim3_amended_invariant :
    (∀ (raw : String), ∀ p ∈ parse_answer_key raw,
        p.2 = 'a' ∨ p.2 = 'b' ∨ p.2 = 'c' ∨ p.2 = 'd' ∨ p.2 = 'e' ∨
        p.2 = 'v' ∨ p.2 = 'f') ∧
    parse_answer_key "1:A" = [(1, 'a')] := by
  constructor
  · intro raw p hp
    unfold parse_answer_key at hp
    by_cases hemp : raw.isEmpty = true
    · rw [if_pos hemp] at hp
      cases hp
    · rw [if_neg hemp] at hp
      unfold dictOfPairs at hp
      rcases dictOfPairs_mem _ [] p hp with h | ⟨q, hq, hval⟩
      · cases h
      · unfold scanMatches at hq
        obtain ⟨c, hc, hcl⟩ := scanGo_letters _ _ q hq
        rw [hval, hcl]
        exact ansLetter_toLower hc
  · decide

/-- Claim C3 witness: the value invariant at a concrete parse. -/
theorem claim3_amended_invariant_witness :
    ((1, 'b') : Nat × Char).2 = 'a' ∨ ((1, 'b') : Nat × Char).2 = 'b' ∨
    ((1, 'b') : Nat × Char).2 = 'c' ∨ ((1, 'b') : Nat × Char).2 = 'd' ∨
    ((1, 'b') : Nat × Char).2 = 'e' ∨ ((1, 'b') : Nat × Char).2 = 'v' ∨
    ((1, 'b') : Nat × Char).2 = 'f' :=
  claim3_amended_invariant.1 "1:b" (1, 'b') (by decide)

/-- Claim C5: parse is last-match-wins — for every input string the
stored letter for a question number is the one of the later match in
scan order, and in particular parse("1:a, 1:b") = {1:"b"}. -/
theorem claim5_last_match_wins :
    (∀ (raw : String) (q : Nat),
        dictLookup (parse_answer_key raw) q = lastValue (scanMatches raw.data) q) ∧
    parse_answer_key "1:a, 1:b" = [(1, 'b')] := by
  constructor
  · intro raw q
    unfold parse_answer_key
    by_cases hemp : raw.isEmpty = true
    · rw [if_pos hemp]
      have hdata : raw.data = [] := by
        have h2 : raw = "" := (String.isEmpty_iff _).mp hemp
        rw [h2]
      rw [hdata]
      rfl
    · rw [if_neg hemp]
      exact dictLookup_dictOfPairs _ q
  · decide

/-- Claim C10: the separator is optional — a digit run directly
adjacent to an allowed letter matches, and the letter may be the first
of a longer letter run; in particular parse("12a") = {12:"a"},
parse of "the 3b option" = {3:"b"}, and parse("1:ab") = {1:"a"}. -/
theorem claim10_optional_separator :
    (∀ (ds : List Char) (c : Char) (rest : List Char),
        ds ≠ [] → ds.length ≤ 4 → (∀ x ∈ ds, isDigitCh x = true) →
        isAnsLetter c = true →
        scanMatches (ds ++ c :: rest) = (natOfDigits ds, c.toLower) :: scanMatches rest) ∧
    parse_answer_key "12a" = [(12, 'a')] ∧
    parse_answer_key "the 3b option" = [(3, 'b')] ∧
    parse_answer_key "1:ab" = [(1, 'a')] := by
  refine ⟨?_, by decide, by decide, by decide⟩
  intro ds c rest hne hlen hds hc
  have hmt : matchTail (c :: rest) = some (c, rest) :=
    matchTail_spec [] [] [] c rest (by simp) (by simp) (by simp) hc
  exact scanMatches_token ds hne hds hlen hmt

/-- Claim C10 witness: a two-digit number directly adjacent to a
letter, at concrete inputs. -/
theorem claim10_optional_separator_witness :
    scanMatches (['1','2'] ++ 'a' :: []) =
      (natOfDigits ['1','2'], 'a'.toLower) :: scanMatches [] :=
  claim10_optional_separator.1 ['1','2'] 'a' [] (by decide) (by decide) (by decide) (by decide)

/-- The scan of a well-formed comma-separated token sequence yields
exactly those tokens, in order. -/
lemma scanMatches_renderTokens : ∀ ts : List (List Char × Char),
    (∀ t ∈ ts, t.1 ≠ [] ∧ t.1.length ≤ 4 ∧ (∀ x ∈ t.1, isDigitCh x = true) ∧
      isAnsLetter t.2 = true) →
    scanMatches (renderTokens ts) = ts.map (fun t => (natOfDigits t.1, t.2.toLower)) := by
  intro ts
  induction ts with
  | nil => intro _; rfl
  | cons t ts' ih =>
    intro h
    obtain ⟨hne, hlen, hds, hc⟩ := h t (by simp)
    cases ts' with
    | nil =>
      show scanMatches (t.1 ++ (':' :: [t.2])) = [(natOfDigits t.1, t.2.toLower)]
      have hmt : matchTail (':' :: [t.2]) = some (t.2, []) :=
        matchTail_spec [] [] [':'] t.2 [] (by simp) (by simp) (by simp) hc
      rw [scanMatches_token t.1 hne hds hlen hmt]
      rfl
    | cons t2 ts'' =>
      show scanMatches ((t.1 ++ (':' :: [t.2])) ++ (',' :: ' ' :: renderTokens (t2 :: ts''))) = _
      rw [List.append_assoc]
      show scanMatches (t.1 ++ (':' :: t.2 :: (',' :: ' ' :: renderTokens (t2 :: ts'')))) = _
      have hmt : matchTail (':' :: t.2 :: (',' :: ' ' :: renderTokens (t2 :: ts''))) =
          some (t.2, ',' :: ' ' :: renderTokens (t2 :: ts'')) :=
        matchTail_spec [] [] [':'] t.2 (',' :: ' ' :: renderTokens (t2 :: ts''))
          (by simp) (by simp) (by simp) hc
      rw [scanMatches_token t.1 hne hds hlen hmt]
      rw [scanMatches_cons_not_digit _ (by decide), scanMatches_cons_not_digit _ (by decide)]
      rw [ih (fun q hq => h q (by simp [hq]))]
      rfl

/-- Claim C4: for every input string consisting only of well-formed
question:answer tokens (comma-and-space separated), parse returns
exactly the dict those tokens describe (with Python dict assignment
folding the pairs in order); in particular
parse("1:a, 2:d, 3:e, 4:v, 5:f") = {1:a, 2:d, 3:e, 4:v, 5:f}. -/
theorem claim4_wellformed_parse :
    (∀ ts : List (List Char × Char),
        (∀ t ∈ ts, t.1 ≠ [] ∧ t.1.length ≤ 4 ∧ (∀ x ∈ t.1, isDigitCh x = true) ∧
          isAnsLetter t.2 = true) →
        parse_answer_key (String.mk (renderTokens ts)) =
          dictOfPairs (ts.map (fun t => (natOfDigits t.1, t.2.toLower)))) ∧
    parse_answer_key "1:a, 2:d, 3:e, 4:v, 5:f" =
      [(1,'a'), (2,'d'), (3,'e'), (4,'v'), (5,'f')] := by
  constructor
  · intro ts hts
    rw [parse_mk_eq, scanMatches_renderTokens ts hts]
  · decide

/-- Claim C4 witness: the render theorem at a concrete token list. -/
theorem claim4_wellformed_parse_witness :
    parse_answer_key (String.mk (renderTokens [(['1'], 'a'), (['2'], 'd')])) =
      dictOfPairs ([(['1'], 'a'), (['2'], 'd')].map
        (fun t => (natOfDigits t.1, t.2.toLower))) :=
  claim4_wellformed_parse.1 [(['1'], 'a'), (['2'], 'd')] (by decide)

/-- Claim C8: grading depends only on the restriction of both
mappings to the question range 1..totalQuestions — entries outside the
range never affect the result; a question absent from the student
mapping can never count as correct (it is counted as incorrect, the
result having no other category: incorrect = totalQuestions -
correct by Claim C1). -/
theorem claim8_restriction :
    (∀ (student key : List (Nat × Char)) (total_q : Int),
        grade_answers student key total_q =
          grade_answers (restrictTo student total_q) (restrictTo key total_q) total_q) ∧
    (∀ (student key : List (Nat × Char)) (q : Nat),
        dictLookup student q = none → answerMatch student key q = false) ∧
    (∀ (student key : List (Nat × Char)) (total_q : Int), 1 ≤ total_q →
        (grade_answers student key total_q).2.1 + (grade_answers student key total_q).2.2 =
          total_q) := by
  refine ⟨?_, ?_, ?_⟩
  · intro student key total_q
    unfold grade_answers
    by_cases h : total_q ≤ 0
    · rw [if_pos h, if_pos h]
    · rw [if_neg h, if_neg h]
      dsimp only
      have hmatch : ∀ q ∈ (List.range total_q.toNat).map (fun i => i + 1),
          answerMatch student key q =
            answerMatch (restrictTo student total_q) (restrictTo key total_q) q := by
        intro q hq
        obtain ⟨i, hi, rfl⟩ := List.mem_map.mp hq
        rw [List.mem_range] at hi
        have hq1 : 1 ≤ i + 1 := by omega
        have hq2 : ((i + 1 : Nat) : Int) ≤ total_q := by omega
        have hpred : (decide (1 ≤ i + 1 ∧ ((i + 1 : Nat) : Int) ≤ total_q)) = true := by
          simp only [decide_eq_true_eq]
          omega
        unfold answerMatch restrictTo
        rw [dictLookup_filter (fun k => decide (1 ≤ k ∧ (k : Int) ≤ total_q)) student,
          dictLookup_filter (fun k => decide (1 ≤ k ∧ (k : Int) ≤ total_q)) key]
        rw [if_pos hpred, if_pos hpred]
      have hfold : ((List.range total_q.toNat).map (fun i => i + 1)).foldl
            (fun acc q => if answerMatch student key q then acc + 1 else acc) (0 : Int) =
          ((List.range total_q.toNat).map (fun i => i + 1)).foldl
            (fun acc q => if answerMatch (restrictTo student total_q)
              (restrictTo key total_q) q then acc + 1 else acc) (0 : Int) := by
        apply List.foldl_ext
        intro a q hq
        rw [hmatch q hq]
      rw [hfold]
  · intro student key q hnone
    unfold answerMatch
    rw [hnone]
  · intro student key total_q h
    rw [grade_eq_spec student key total_q h]
    show (specCorrectCount student key total_q : Int) +
      (total_q - (specCorrectCount student key total_q : Int)) = total_q
    omega

/-- Claim C8 witness: the absent-student case and the
correct-plus-incorrect identity at concrete inputs. -/
theorem claim8_restriction_witness :
    answerMatch [] [(1,'a')] 1 = false ∧
    (grade_answers [(1,'a')] [(1,'a')] 1).2.1 + (grade_answers [(1,'a')] [(1,'a')] 1).2.2 = 1 :=
  ⟨claim8_restriction.2.1 [] [(1,'a')] 1 (by decide),
   claim8_restriction.2.2 [(1,'a')] [(1,'a')] 1 (by decide)⟩
